import Mathlib

/-!
Verification of the markdown-template-preprocessor (src/src/main.rs).

Texts are modelled as lists of characters. Each regex-driven transformation of
the source is embedded as an executable Lean function that follows the
semantics of the Rust regex crate (leftmost match, greedy repetition,
non-overlapping successive matches, replacements never rescanned).
-/

namespace MTP

/-- Convert a string literal to the list-of-characters representation. -/
def chars (s : String) : List Char := s.data

/-- The literal fragment start marker. -/
def START : List Char := chars ("<!\x2d\x2d START \x2d\x2d>")

/-- The literal fragment end marker. -/
def ENDM : List Char := chars ("<!\x2d\x2d END \x2d\x2d>")

/-- Word characters, modelling the regex class backslash-w (ASCII reading). -/
def isWordChar (c : Char) : Bool := c.isAlphanum || c = '_'

/-- Characters allowed in an always-include file name: word characters or a dot. -/
def isIncChar (c : Char) : Bool := isWordChar c || c = '.'

/-- One line of the header pattern of main.rs lines 97-100: the multiline regex
matches a line exactly when it begins with a hash character (the group pair
splits it as up to five hashes plus the remainder), and the replacement
prepends one extra hash to the two concatenated groups, that is to the whole
line. -/
def shiftLine (l : List Char) : List Char :=
  match l with
  | [] => []
  | c :: cs => if c = '#' then '#' :: c :: cs else c :: cs

/-- Split a text into its newline-separated lines. -/
def splitLines : List Char → List (List Char)
  | [] => [[]]
  | c :: cs =>
    if c = '\n' then [] :: splitLines cs
    else
      match splitLines cs with
      | [] => [[c]]
      | l :: ls => (c :: l) :: ls

/-- Rejoin lines with newline separators; inverse of splitLines on rejoined data. -/
def joinLines : List (List Char) → List Char
  | [] => []
  | [l] => l
  | l :: l2 :: ls => l ++ '\n' :: joinLines (l2 :: ls)

/-- The header shifter of main.rs lines 97-100 (header_pat replace_all). -/
def headerShift (cs : List Char) : List Char :=
  joinLines ((splitLines cs).map shiftLine)

/-- Drop everything up to and including the first occurrence of pat;
none when pat does not occur. -/
def dropAfterFirst (pat : List Char) : List Char → Option (List Char)
  | [] => none
  | c :: cs =>
    if pat.isPrefixOf (c :: cs) then some ((c :: cs).drop pat.length)
    else dropAfterFirst pat cs

/-- Everything strictly before the last occurrence of pat;
none when pat does not occur. -/
def takeBeforeLast (pat : List Char) : List Char → Option (List Char)
  | [] => none
  | c :: cs =>
    match takeBeforeLast pat cs with
    | some t => some (c :: t)
    | none => if pat.isPrefixOf (c :: cs) then some [] else none

/-- Strip at most one leading newline, modelling the greedy optional newline of
include_pat. -/
def stripLeadNl : List Char → List Char
  | [] => []
  | c :: r => if c = '\n' then r else c :: r

/-- The single match of include_pat (main.rs lines 124-131): the regex run of
any characters is greedy, so the capture reaches from just after the first
START marker (one following newline stripped) to the start of the last END
marker; after that match no END marker remains, so captures_iter yields at
most this one capture. -/
def extractCore (buf : List Char) : Option (List Char) :=
  (dropAfterFirst START buf).bind fun r => takeBeforeLast ENDM (stripLeadNl r)

/-- The text spliced for a fragment in Static and Spoiler modes: the join of
the header-shifted captures of include_pat (empty when there is no match). -/
def includeText (buf : List Char) : List Char :=
  match extractCore buf with
  | some t => headerShift t
  | none => []

/-- Does pat occur in s starting at index i. -/
def occursAt (pat s : List Char) (i : Nat) : Bool := pat.isPrefixOf (s.drop i)

/-- Greedy parse of the repeated group of word-plus-slash path segments.
The accumulator cur holds the word characters consumed from the current
segment; the result is the concatenation of all complete segments (each with
its trailing slash) paired with the unconsumed remainder, which starts at the
beginning of the first incomplete segment. -/
def parseSegsAux : List Char → List Char → List Char × List Char
  | cur, [] => ([], cur)
  | cur, c :: cs =>
    if isWordChar c then parseSegsAux (cur ++ [c]) cs
    else if c = '/' then
      if cur = [] then ([], cur ++ c :: cs)
      else
        let r := parseSegsAux [] cs
        (cur ++ '/' :: r.1, r.2)
    else ([], cur ++ c :: cs)

/-- Greedy parse of the directory-segment group of both directive patterns. -/
def parseSegs (cs : List Char) : List Char × List Char := parseSegsAux [] cs

/-- Parse the link-or-include file-name group: word characters, the literal
dot-md suffix, then the two closing braces; returns the captured name and the
text after the braces. -/
def parseMdName (cs : List Char) : Option (List Char × List Char) :=
  if cs.takeWhile isWordChar = [] then none
  else
    match cs.dropWhile isWordChar with
    | '.' :: 'm' :: 'd' :: '\x7d' :: '\x7d' :: rest =>
      some (cs.takeWhile isWordChar ++ ['.', 'm', 'd'], rest)
    | _ => none

/-- Parse the always-include file-name group: a nonempty run of word or dot
characters, then the two closing braces. -/
def parseIncName (cs : List Char) : Option (List Char × List Char) :=
  if cs.takeWhile isIncChar = [] then none
  else
    match cs.dropWhile isIncChar with
    | '\x7d' :: '\x7d' :: rest => some (cs.takeWhile isIncChar, rest)
    | _ => none

/-- The literal prefix of the link-or-include directive pattern (main.rs line 68). -/
def LINKPRE : List Char := chars ("\x7b\x7blink or include|")

/-- The literal prefix of the always-include directive pattern (main.rs line 155). -/
def INCPRE : List Char := chars ("\x7b\x7binclude|")

/-- Try to match one directive at the head of cs. After the literal prefix the
pattern has an unescaped dot (any single character other than newline), a
literal slash, one or more word-plus-slash segments (group 1), the file name
(group 2, shape depending on the directive kind lk), and two closing braces.
Returns the two captured groups and the text after the match. -/
def matchDir (pre : List Char) (lk : Bool) (cs : List Char) :
    Option (List Char × List Char × List Char) :=
  if pre.isPrefixOf cs then
    match cs.drop pre.length with
    | c :: '/' :: rest =>
      if c = '\n' then none
      else if (parseSegs rest).1 = [] then none
      else
        (if lk then parseMdName (parseSegs rest).2 else parseIncName (parseSegs rest).2).map
          fun q => ((parseSegs rest).1, q.1, q.2)
    | _ => none
  else none

/-- Fuelled replace_all scanner: at each position try to match; on a match
emit the replacement (abort on its failure, modelling the panicking closure)
and continue after the match without rescanning the replacement; otherwise
copy one character. The fuel never runs out when initialised with the length
of the text. -/
def scanAux (m : List Char → Option (List Char × List Char × List Char))
    (repl : List Char → List Char → Option (List Char)) :
    Nat → List Char → Option (List Char)
  | 0, cs => some cs
  | _ + 1, [] => some []
  | fuel + 1, c :: cs =>
    match m (c :: cs) with
    | some q => (repl q.1 q.2.1).bind fun rep => (scanAux m repl fuel q.2.2).map fun t => rep ++ t
    | none => (scanAux m repl fuel cs).map fun t => c :: t

/-- The replace_all loop of the regex crate over the whole text. -/
def scanRepl (m : List Char → Option (List Char × List Char × List Char))
    (repl : List Char → List Char → Option (List Char)) (cs : List Char) :
    Option (List Char) :=
  scanAux m repl cs.length cs

/-- The build mode selected once per run (main.rs BuildMode). -/
inductive BuildMode
  | dynamic
  | static
  | spoiler
deriving DecidableEq

/-- The read-only context of a run: the mode, the directory of the input file
(with trailing separator, modelling input_file with its last component
popped), together with the filesystem environment: canon models
Path::canonicalize and fs models opening and reading a file, both returning
none on failure. -/
structure BuildContext where
  mode : BuildMode
  inputDir : List Char
  canon : List Char → Option (List Char)
  fs : List Char → Option (List Char)

/-- The replacement of one link-or-include directive (main.rs lines 68-151).
In Spoiler mode the summary line interpolates the joined path before it is
canonicalized, exactly as the source pushes target_path onto pasting_text
before calling canonicalize. -/
def linkRepl (ctx : BuildContext) (segs fname : List Char) : Option (List Char) :=
  match ctx.mode with
  | .dynamic =>
    some (chars ("This section is migrated. Please see [") ++ fname ++ chars ("](./")
      ++ segs ++ fname ++ chars (")"))
  | .spoiler =>
    (ctx.canon (ctx.inputDir ++ segs ++ fname)).bind fun cp =>
      (ctx.fs cp).map fun buf =>
        chars ("<details><summary>content of ") ++ (ctx.inputDir ++ segs ++ fname)
          ++ chars ("</summary>\n\n") ++ includeText buf ++ chars ("\n</details>")
  | .static =>
    (ctx.canon (ctx.inputDir ++ segs ++ fname)).bind fun cp => (ctx.fs cp).map includeText

/-- The replacement of one always-include directive (main.rs lines 154-172):
the raw file content with no further processing. -/
def includeRepl (ctx : BuildContext) (segs fname : List Char) : Option (List Char) :=
  (ctx.canon (ctx.inputDir ++ segs ++ fname)).bind ctx.fs

/-- The LinkOrInclude pass (PreProcessor::transform of LinkOrInclude). -/
def linkTransform (ctx : BuildContext) (cs : List Char) : Option (List Char) :=
  scanRepl (matchDir LINKPRE true) (linkRepl ctx) cs

/-- The AlwaysInclude pass (PreProcessor::transform of AlwaysInclude). -/
def alwaysTransform (ctx : BuildContext) (cs : List Char) : Option (List Char) :=
  scanRepl (matchDir INCPRE false) (includeRepl ctx) cs

/-- The two-pass pipeline of main (main.rs lines 190-191): the link-or-include
pass over the whole document, then the always-include pass over its result. -/
def pipeline (ctx : BuildContext) (cs : List Char) : Option (List Char) :=
  (linkTransform ctx cs).bind fun t => alwaysTransform ctx t

/-- Well-formed directory-segment words: a nonempty list of nonempty all-word
segment names. -/
def goodSegs (ws : List (List Char)) : Prop :=
  ws ≠ [] ∧ ∀ w ∈ ws, w ≠ [] ∧ w.all isWordChar = true

/-- The group-1 text denoted by a list of segment words: each word followed by
a slash, concatenated. -/
def joinSegs (ws : List (List Char)) : List Char := (ws.map fun w => w ++ ['/']).flatten

/-- Well-formed link-or-include file name: a nonempty word part followed by
the literal dot-md suffix. -/
def isMdNameP (f : List Char) : Prop :=
  f.takeWhile isWordChar ≠ [] ∧ f.dropWhile isWordChar = ['.', 'm', 'd']

/-- Well-formed always-include file name: nonempty, word or dot characters. -/
def isIncNameP (f : List Char) : Prop := f ≠ [] ∧ f.all isIncChar = true

instance (ws : List (List Char)) : Decidable (goodSegs ws) := by
  unfold goodSegs
  infer_instance

instance (f : List Char) : Decidable (isMdNameP f) := by
  unfold isMdNameP
  infer_instance

instance (f : List Char) : Decidable (isIncNameP f) := by
  unfold isIncNameP
  infer_instance

/-- A context in Dynamic mode whose filesystem is empty: Dynamic resolution
never consults it. -/
def dynCtx : BuildContext := ⟨.dynamic, [], fun _ => none, fun _ => none⟩

/-- A Static context whose canonicalization succeeds and whose filesystem is
empty, so every fragment read fails. -/
def ctx9 : BuildContext := ⟨.static, [], fun p => some p, fun _ => none⟩

/-- A Spoiler context whose canonicalization succeeds and whose filesystem is
empty, so every fragment read fails. -/
def ctx9s : BuildContext := ⟨.spoiler, [], fun p => some p, fun _ => none⟩

/-- A Dynamic context whose filesystem holds one asset file, for the
always-include pattern experiments. -/
def ctx10 : BuildContext :=
  ⟨.dynamic, [], fun p => some p,
   fun p => if p = chars ("a/file.txt") then some (chars ("RAWX")) else none⟩

/-- A fragment whose marked region consists of one always-include directive
tag: it is not part of the original input but is introduced by the first
pass. -/
def frag3 : List Char :=
  chars ("<!\x2d\x2d START \x2d\x2d>\n\x7b\x7binclude|./d2/f2.txt\x7d\x7d<!\x2d\x2d END \x2d\x2d>")

/-- A Static context holding the fragment frag3 and the asset file that the
directive inside frag3 points at. -/
def ctx3 (r : List Char) : BuildContext :=
  ⟨.static, [], fun p => some p,
   fun p =>
     if p = chars ("d1/f1.md") then some frag3
     else if p = chars ("d2/f2.txt") then some r else none⟩

/-- A fragment with one marked region holding the line Body. -/
def frag4 : List Char := chars ("<!\x2d\x2d START \x2d\x2d>\nBody\n<!\x2d\x2d END \x2d\x2d>")

/-- A Spoiler context in which the canonical absolute path of the fragment
differs from the joined relative path, exposing which of the two the summary
line interpolates. -/
def ctx4 : BuildContext :=
  ⟨.spoiler, [],
   fun p => if p = chars ("d1/f1.md") then some (chars ("/abs/d1/f1.md")) else none,
   fun p => if p = chars ("/abs/d1/f1.md") then some frag4 else none⟩

/-- A second Spoiler context with a nonempty input directory and a distinct
canonical path, used to witness the amended claim C4. -/
def ctx4w : BuildContext :=
  ⟨.spoiler, chars ("docs/"),
   fun p => if p = chars ("docs/d2/g.md") then some (chars ("/abs/docs/d2/g.md")) else none,
   fun p =>
     if p = chars ("/abs/docs/d2/g.md")
     then some (chars ("<!\x2d\x2d START \x2d\x2d>W<!\x2d\x2d END \x2d\x2d>")) else none⟩

/-- A Static context holding one fragment file with content buf. -/
def ctx7 (buf : List Char) : BuildContext :=
  ⟨.static, [], fun p => some p,
   fun p => if p = chars ("d1/frag.md") then some buf else none⟩

/-! Helper lemmas about prefixes and the marker search functions. -/

theorem isPrefixOf_append_self (l t : List Char) : l.isPrefixOf (l ++ t) = true := by
  induction l with
  | nil => simp [List.isPrefixOf]
  | cons a l ih =>
    show (a == a && l.isPrefixOf (l ++ t)) = true
    simp [ih]

theorem isPrefixOf_stable (p : List Char) :
    ∀ (u y : List Char), p.length ≤ u.length → p.isPrefixOf (u ++ y) = p.isPrefixOf u := by
  induction p with
  | nil => intro u y _; simp [List.isPrefixOf]
  | cons a p ih =>
    intro u y h
    cases u with
    | nil => simp at h
    | cons b u =>
      show (a == b && p.isPrefixOf (u ++ y)) = (a == b && p.isPrefixOf u)
      rw [ih u y (by simpa using h)]

theorem occursAt_shift (pat : List Char) (c : Char) (s : List Char) (i : Nat) :
    occursAt pat (c :: s) (i + 1) = occursAt pat s i := by
  simp [occursAt]

theorem dropAfterFirst_eq (pat x y : List Char) (hpat : pat ≠ [])
    (hx : ∀ i, i < x.length → occursAt pat (x ++ pat) i = false) :
    dropAfterFirst pat (x ++ (pat ++ y)) = some y := by
  induction x with
  | nil =>
    cases pat with
    | nil => exact absurd rfl hpat
    | cons p pt =>
      show dropAfterFirst (p :: pt) ((p :: pt) ++ y) = some y
      rw [show ((p :: pt) ++ y) = p :: (pt ++ y) from rfl]
      rw [dropAfterFirst]
      rw [show (p :: (pt ++ y)) = ((p :: pt) ++ y) from rfl]
      rw [isPrefixOf_append_self]
      simp [List.drop_left]
  | cons c x' ih =>
    have h0 : pat.isPrefixOf ((c :: x') ++ pat) = false := by
      have := hx 0 (by simp)
      simpa [occursAt] using this
    have h0y : pat.isPrefixOf ((c :: x') ++ (pat ++ y)) = false := by
      rw [show ((c :: x') ++ (pat ++ y)) = (((c :: x') ++ pat) ++ y) by simp]
      rw [isPrefixOf_stable pat ((c :: x') ++ pat) y (by simp; omega)]
      exact h0
    rw [show ((c :: x') ++ (pat ++ y)) = c :: (x' ++ (pat ++ y)) from rfl]
    rw [dropAfterFirst]
    rw [show (c :: (x' ++ (pat ++ y))) = ((c :: x') ++ (pat ++ y)) from rfl]
    rw [h0y]
    simp only [Bool.false_eq_true, if_false]
    exact ih fun i hi => by
      have := hx (i + 1) (by simpa using Nat.succ_lt_succ hi)
      simpa [occursAt, List.drop_succ_cons] using this

theorem dropAfterFirst_none (pat s : List Char)
    (h : ∀ i, i < s.length → occursAt pat s i = false) :
    dropAfterFirst pat s = none := by
  induction s with
  | nil => rfl
  | cons c cs ih =>
    rw [dropAfterFirst]
    have h0 : pat.isPrefixOf (c :: cs) = false := by
      have := h 0 (by simp)
      simpa [occursAt] using this
    rw [h0]
    simp only [Bool.false_eq_true, if_false]
    exact ih fun i hi => by
      have := h (i + 1) (by simpa using Nat.succ_lt_succ hi)
      simpa [occursAt, List.drop_succ_cons] using this

theorem takeBeforeLast_none (pat s : List Char)
    (h : ∀ i, i < s.length → occursAt pat s i = false) :
    takeBeforeLast pat s = none := by
  induction s with
  | nil => rfl
  | cons c cs ih =>
    rw [takeBeforeLast]
    rw [ih fun i hi => by
      have := h (i + 1) (by simpa using Nat.succ_lt_succ hi)
      simpa [occursAt, List.drop_succ_cons] using this]
    have h0 : pat.isPrefixOf (c :: cs) = false := by
      have := h 0 (by simp)
      simpa [occursAt] using this
    simp [h0]

theorem takeBeforeLast_eq (pat x y : List Char) (hpat : pat ≠ [])
    (hy : ∀ i, i < (pat.tail ++ y).length → occursAt pat (pat.tail ++ y) i = false) :
    takeBeforeLast pat (x ++ (pat ++ y)) = some x := by
  induction x with
  | nil =>
    cases pat with
    | nil => exact absurd rfl hpat
    | cons p pt =>
      show takeBeforeLast (p :: pt) ([] ++ ((p :: pt) ++ y)) = some []
      rw [show ([] ++ ((p :: pt) ++ y)) = p :: (pt ++ y) from rfl]
      rw [takeBeforeLast]
      rw [takeBeforeLast_none (p :: pt) (pt ++ y) (by simpa using hy)]
      rw [show (p :: (pt ++ y)) = ((p :: pt) ++ y) from rfl]
      rw [isPrefixOf_append_self]
      simp
  | cons c x' ih =>
    rw [show ((c :: x') ++ (pat ++ y)) = c :: (x' ++ (pat ++ y)) from rfl]
    rw [takeBeforeLast, ih]

theorem stripLeadNl_of_ne (r : List Char) (h : r.head? ≠ some '\n') : stripLeadNl r = r := by
  cases r with
  | nil => rfl
  | cons c cs =>
    have hc : ¬ c = '\n' := fun e => h (by simp [e])
    simp [stripLeadNl, hc]

/-! Helper lemmas about line splitting. -/

theorem splitLines_no_nl (l : List Char) (h : '\n' ∉ l) : splitLines l = [l] := by
  induction l with
  | nil => rfl
  | cons c cs ih =>
    have hc : ¬ c = '\n' := fun e => h (by simp [e])
    have hcs : '\n' ∉ cs := fun hm => h (List.mem_cons_of_mem _ hm)
    simp [splitLines, hc, ih hcs]

theorem splitLines_append (l r : List Char) (h : '\n' ∉ l) :
    splitLines (l ++ '\n' :: r) = l :: splitLines r := by
  induction l with
  | nil => simp [splitLines]
  | cons c cs ih =>
    have hc : ¬ c = '\n' := fun e => h (by simp [e])
    have hcs : '\n' ∉ cs := fun hm => h (List.mem_cons_of_mem _ hm)
    simp [splitLines, hc, ih hcs]

theorem splitLines_joinLines (ls : List (List Char)) (hne : ls ≠ [])
    (h : ∀ l ∈ ls, '\n' ∉ l) : splitLines (joinLines ls) = ls := by
  induction ls with
  | nil => exact absurd rfl hne
  | cons l ls ih =>
    cases ls with
    | nil => simpa [joinLines] using splitLines_no_nl l (h l (by simp))
    | cons l2 ls2 =>
      rw [show joinLines (l :: l2 :: ls2) = l ++ '\n' :: joinLines (l2 :: ls2) from rfl]
      rw [splitLines_append l _ (h l (by simp))]
      rw [ih (by simp) fun x hx => h x (List.mem_cons_of_mem _ hx)]

/-! Claim theorems about the header shifter and the fragment extractor. -/

/-- Claim C2, counterexample: the claim says a line with six or more leading
hash characters is left completely untouched, but the header shifter rewrites
the line of six hashes and an x to seven hashes and an x, because the pattern
matches its first five hashes and the dot-star group swallows the rest. -/
theorem c2_counterexample :
    headerShift (chars ("######x")) = chars ("#######x")
    ∧ headerShift (chars ("######x")) ≠ chars ("######x") := by
  constructor
  · decide
  · decide

/-- Claim C2, amended: a line whose content has one or more leading hash
characters (including six or more) is rewritten with exactly one additional
leading hash and the rest of the line preserved verbatim, and only lines with
zero leading hash characters are left untouched; the shifter acts on each
newline-separated line independently. -/
theorem c2_amended :
    (∀ l : List Char, l.head? = some '#' → shiftLine l = '#' :: l)
    ∧ (∀ l : List Char, l.head? ≠ some '#' → shiftLine l = l)
    ∧ (∀ ls : List (List Char), ls ≠ [] → (∀ l ∈ ls, '\n' ∉ l) →
        headerShift (joinLines ls) = joinLines (ls.map shiftLine)) := by
  refine ⟨?_, ?_, ?_⟩
  · intro l h
    cases l with
    | nil => simp at h
    | cons c cs =>
      have hc : c = '#' := by simpa using h
      subst hc
      simp [shiftLine]
  · intro l h
    cases l with
    | nil => rfl
    | cons c cs =>
      have hc : ¬ c = '#' := fun e => h (by simp [e])
      simp [shiftLine, hc]
  · intro ls hne h
    unfold headerShift
    rw [splitLines_joinLines ls hne h]

/-- Claim C2, witness for the amended statement at concrete lines: a
five-hash heading gains a hash, a plain line is untouched, and a two-line
text is shifted linewise. -/
theorem c2_amended_witness :
    shiftLine (chars ("##### five")) = chars ("###### five")
    ∧ shiftLine (chars ("plain")) = chars ("plain")
    ∧ headerShift (joinLines [chars ("## a"), chars ("text")])
        = joinLines ([chars ("## a"), chars ("text")].map shiftLine) :=
  ⟨c2_amended.1 (chars ("##### five")) (by decide),
   c2_amended.2.1 (chars ("plain")) (by decide),
   c2_amended.2.2 [chars ("## a"), chars ("text")] (by decide) (by decide)⟩

/-- Claim C1, counterexample: on a fragment with two START-END pairs the
claim predicts the concatenation of the two inner texts, the string AB, but
the greedy any-character run of include_pat reaches from the first START
marker to the last END marker, so the single capture keeps the intermediate
markers verbatim. -/
theorem c1_counterexample :
    includeText
        (chars ("<!\x2d\x2d START \x2d\x2d>A<!\x2d\x2d END \x2d\x2d>X<!\x2d\x2d START \x2d\x2d>B<!\x2d\x2d END \x2d\x2d>"))
      = chars ("A<!\x2d\x2d END \x2d\x2d>X<!\x2d\x2d START \x2d\x2d>B")
    ∧ chars ("A<!\x2d\x2d END \x2d\x2d>X<!\x2d\x2d START \x2d\x2d>B") ≠ chars ("AB") := by
  constructor
  · decide
  · decide

/-- Claim C1, amended: for a fragment text with two well-separated START-END
pairs the extractor output is the single header-shifted substring reaching
from just after the first START marker to the start of the last END marker,
with the intermediate END and START markers kept verbatim, because the
any-character repetition of include_pat is greedy rather than non-greedy.
The hypotheses say that the text before the first START marker contains no
earlier START occurrence, that the capture does not begin with a newline
(which would be stripped), and that no END occurrence follows the last END
marker. -/
theorem c1_amended (p a m b q : List Char)
    (hp : ∀ i, i < p.length → occursAt START (p ++ START) i = false)
    (ha : a.head? ≠ some '\n')
    (hq : ∀ i, i < (ENDM.tail ++ q).length → occursAt ENDM (ENDM.tail ++ q) i = false) :
    includeText (p ++ (START ++ (a ++ (ENDM ++ (m ++ (START ++ (b ++ (ENDM ++ q))))))))
      = headerShift (a ++ (ENDM ++ (m ++ (START ++ b)))) := by
  have hd := dropAfterFirst_eq START p
    (a ++ (ENDM ++ (m ++ (START ++ (b ++ (ENDM ++ q)))))) (by decide) hp
  have hs : stripLeadNl (a ++ (ENDM ++ (m ++ (START ++ (b ++ (ENDM ++ q))))))
      = a ++ (ENDM ++ (m ++ (START ++ (b ++ (ENDM ++ q))))) := by
    apply stripLeadNl_of_ne
    cases a with
    | nil =>
      rw [List.nil_append]
      rw [show (ENDM ++ (m ++ (START ++ (b ++ (ENDM ++ q)))))
            = '<' :: (ENDM.tail ++ (m ++ (START ++ (b ++ (ENDM ++ q))))) from rfl]
      simp
    | cons c cs =>
      have hc : ¬ c = '\n' := fun e => ha (by simp [e])
      simp [hc]
  have ht := takeBeforeLast_eq ENDM (a ++ (ENDM ++ (m ++ (START ++ b)))) q (by decide) hq
  have hx : extractCore (p ++ (START ++ (a ++ (ENDM ++ (m ++ (START ++ (b ++ (ENDM ++ q))))))))
      = some (a ++ (ENDM ++ (m ++ (START ++ b)))) := by
    unfold extractCore
    rw [hd]
    show takeBeforeLast ENDM (stripLeadNl _) = _
    rw [hs]
    rw [show (a ++ (ENDM ++ (m ++ (START ++ (b ++ (ENDM ++ q))))))
          = ((a ++ (ENDM ++ (m ++ (START ++ b)))) ++ (ENDM ++ q)) by simp [List.append_assoc]]
    exact ht
  unfold includeText
  rw [hx]

/-- Claim C1, witness for the amended statement: a concrete fragment with two
pairs, whose capture starts with a heading line that gets shifted. -/
theorem c1_amended_witness :
    includeText
        (chars ("<!\x2d\x2d START \x2d\x2d># h<!\x2d\x2d END \x2d\x2d>X<!\x2d\x2d START \x2d\x2d>B<!\x2d\x2d END \x2d\x2d>"))
      = chars ("## h<!\x2d\x2d END \x2d\x2d>X<!\x2d\x2d START \x2d\x2d>B") :=
  c1_amended [] (chars ("# h")) (chars ("X")) (chars ("B")) []
    (by decide) (by decide) (by decide)

/-- Claim C5: for a fragment text with exactly one START-END pair the
extractor yields exactly the header-shifted text strictly between the two
markers, with at most one newline immediately after the START marker
stripped (first conjunct: one leading newline is stripped; second conjunct:
when the text between the markers does not begin with a newline, nothing is
stripped); the text before START and after END is excluded entirely. The
hypotheses state the single-pair shape: no START occurrence inside the text
before the marker and no END occurrence after the final marker. -/
theorem c5 (p a q : List Char)
    (hp : ∀ i, i < p.length → occursAt START (p ++ START) i = false)
    (ha : a.head? ≠ some '\n')
    (hq : ∀ i, i < (ENDM.tail ++ q).length → occursAt ENDM (ENDM.tail ++ q) i = false) :
    includeText (p ++ (START ++ ('\n' :: (a ++ (ENDM ++ q))))) = headerShift a
    ∧ includeText (p ++ (START ++ (a ++ (ENDM ++ q)))) = headerShift a := by
  have ht := takeBeforeLast_eq ENDM a q (by decide) hq
  constructor
  · have hd := dropAfterFirst_eq START p ('\n' :: (a ++ (ENDM ++ q))) (by decide) hp
    have hx : extractCore (p ++ (START ++ ('\n' :: (a ++ (ENDM ++ q))))) = some a := by
      unfold extractCore
      rw [hd]
      show takeBeforeLast ENDM (stripLeadNl ('\n' :: (a ++ (ENDM ++ q)))) = some a
      rw [show stripLeadNl ('\n' :: (a ++ (ENDM ++ q))) = a ++ (ENDM ++ q) by simp [stripLeadNl]]
      exact ht
    unfold includeText
    rw [hx]
  · have hd := dropAfterFirst_eq START p (a ++ (ENDM ++ q)) (by decide) hp
    have hs : stripLeadNl (a ++ (ENDM ++ q)) = a ++ (ENDM ++ q) := by
      apply stripLeadNl_of_ne
      cases a with
      | nil =>
        rw [List.nil_append]
        rw [show (ENDM ++ q) = '<' :: (ENDM.tail ++ q) from rfl]
        simp
      | cons c cs =>
        have hc : ¬ c = '\n' := fun e => ha (by simp [e])
        simp [hc]
    have hx : extractCore (p ++ (START ++ (a ++ (ENDM ++ q)))) = some a := by
      unfold extractCore
      rw [hd]
      show takeBeforeLast ENDM (stripLeadNl (a ++ (ENDM ++ q))) = some a
      rw [hs]
      exact ht
    unfold includeText
    rw [hx]

/-- Claim C5, witness: the concrete fragment shapes of the spec scenario,
with and without the stripped newline, around the body of a two-line text
whose heading is shifted. -/
theorem c5_witness :
    includeText (chars ("# Te<!\x2d\x2d START \x2d\x2d>\n## s\nbody<!\x2d\x2d END \x2d\x2d>tail"))
      = chars ("### s\nbody")
    ∧ includeText (chars ("# Te<!\x2d\x2d START \x2d\x2d>## s\nbody<!\x2d\x2d END \x2d\x2d>tail"))
      = chars ("### s\nbody") :=
  c5 (chars ("# Te")) (chars ("## s\nbody")) (chars ("tail"))
    (by decide) (by decide) (by decide)

/-! Helper lemmas about the directive parser. -/

theorem all_takeWhile_self (p : Char → Bool) (l : List Char) : (l.takeWhile p).all p = true := by
  induction l with
  | nil => rfl
  | cons a l ih =>
    rw [List.takeWhile_cons]
    by_cases ha : p a = true
    · simp [ha, ih]
    · simp [ha]

theorem dropWhile_head_false (p : Char → Bool) (l : List Char) (c : Char) (t : List Char)
    (h : l.dropWhile p = c :: t) : p c = false := by
  induction l with
  | nil => simp [List.dropWhile] at h
  | cons a l ih =>
    rw [List.dropWhile_cons] at h
    by_cases ha : p a = true
    · rw [if_pos ha] at h
      exact ih h
    · rw [if_neg ha] at h
      injection h with h1 _
      subst h1
      simpa using ha

theorem all_cons_split (p : Char → Bool) (a : Char) (l : List Char)
    (h : (a :: l).all p = true) : p a = true ∧ l.all p = true := by
  rw [List.all_cons, Bool.and_eq_true] at h
  exact h

theorem takeWhile_append_stop (p : Char → Bool) :
    ∀ (w : List Char), w.all p = true →
    ∀ cs : List Char, (∀ c cs', cs = c :: cs' → p c = false) →
    (w ++ cs).takeWhile p = w ∧ (w ++ cs).dropWhile p = cs := by
  intro w
  induction w with
  | nil =>
    intro _ cs hcs
    cases cs with
    | nil => exact ⟨rfl, rfl⟩
    | cons c cs' =>
      have hc := hcs c cs' rfl
      simp [List.takeWhile_cons, List.dropWhile_cons, hc]
  | cons a w' ih =>
    intro hw cs hcs
    have ha := (all_cons_split p a w' hw).1
    have hrec := ih (all_cons_split p a w' hw).2 cs hcs
    simp [List.takeWhile_cons, List.dropWhile_cons, ha, hrec.1, hrec.2]

theorem parseSegsAux_words : ∀ (w : List Char), w.all isWordChar = true →
    ∀ cur cs, parseSegsAux cur (w ++ cs) = parseSegsAux (cur ++ w) cs := by
  intro w
  induction w with
  | nil => intro _ cur cs; simp
  | cons a w' ih =>
    intro hw cur cs
    have ha := (all_cons_split isWordChar a w' hw).1
    have hw' := (all_cons_split isWordChar a w' hw).2
    rw [show ((a :: w') ++ cs) = a :: (w' ++ cs) from rfl]
    rw [show parseSegsAux cur (a :: (w' ++ cs)) = parseSegsAux (cur ++ [a]) (w' ++ cs) by
      simp [parseSegsAux, ha]]
    rw [ih hw' (cur ++ [a]) cs]
    simp

theorem parseSegsAux_fail (cur cs : List Char)
    (h : cs = [] ∨ ∃ c cs', cs = c :: cs' ∧ isWordChar c = false ∧ ¬ c = '/') :
    parseSegsAux cur cs = ([], cur ++ cs) := by
  rcases h with rfl | ⟨c, cs', rfl, hw, hs⟩
  · simp [parseSegsAux]
  · simp [parseSegsAux, hw, hs]

theorem parseSegsAux_join (ws : List (List Char)) (r : List Char)
    (hw : ∀ w ∈ ws, w ≠ [] ∧ w.all isWordChar = true)
    (hr : parseSegsAux [] r = ([], r)) :
    parseSegsAux [] (joinSegs ws ++ r) = (joinSegs ws, r) := by
  induction ws with
  | nil => simpa [joinSegs] using hr
  | cons w ws' ih =>
    have hwh := hw w (by simp)
    have hjoin : joinSegs (w :: ws') = w ++ '/' :: joinSegs ws' := by simp [joinSegs]
    rw [hjoin]
    rw [show ((w ++ '/' :: joinSegs ws') ++ r) = w ++ ('/' :: (joinSegs ws' ++ r)) by simp]
    rw [parseSegsAux_words w hwh.2 [] ('/' :: (joinSegs ws' ++ r))]
    rw [show parseSegsAux ([] ++ w) ('/' :: (joinSegs ws' ++ r))
          = (([] ++ w) ++ '/' :: (parseSegsAux [] (joinSegs ws' ++ r)).1,
             (parseSegsAux [] (joinSegs ws' ++ r)).2) by
      simp [parseSegsAux, hwh.1, isWordChar]]
    rw [ih fun x hx => hw x (List.mem_cons_of_mem _ hx)]
    simp

theorem joinSegs_ne_nil (ws : List (List Char)) (h : ws ≠ []) : joinSegs ws ≠ [] := by
  cases ws with
  | nil => exact absurd rfl h
  | cons w t =>
    rw [show joinSegs (w :: t) = w ++ '/' :: joinSegs t by simp [joinSegs]]
    simp

theorem mdName_split (fname : List Char) (hf : isMdNameP fname) :
    fname = fname.takeWhile isWordChar ++ ['.', 'm', 'd'] := by
  conv_lhs => rw [← List.takeWhile_append_dropWhile (p := isWordChar) (l := fname)]
  rw [hf.2]

theorem parseMdName_hit (fname v : List Char) (hf : isMdNameP fname) :
    parseMdName (fname ++ ('\x7d' :: '\x7d' :: v)) = some (fname, v) := by
  have hfeq := mdName_split fname hf
  have hwall : (fname.takeWhile isWordChar).all isWordChar = true := all_takeWhile_self _ _
  have hstop := takeWhile_append_stop isWordChar (fname.takeWhile isWordChar) hwall
    ('.' :: 'm' :: 'd' :: '\x7d' :: '\x7d' :: v)
    (by intro c cs' h; injection h with h1 _; subst h1; decide)
  have harr : fname ++ ('\x7d' :: '\x7d' :: v)
      = fname.takeWhile isWordChar ++ ('.' :: 'm' :: 'd' :: '\x7d' :: '\x7d' :: v) := by
    conv_lhs => rw [hfeq]
    simp
  unfold parseMdName
  rw [harr, hstop.1, hstop.2, if_neg hf.1]
  show some (fname.takeWhile isWordChar ++ ['.', 'm', 'd'], v) = some (fname, v)
  rw [← hfeq]

theorem parseIncName_hit (fname v : List Char) (hf : isIncNameP fname) :
    parseIncName (fname ++ ('\x7d' :: '\x7d' :: v)) = some (fname, v) := by
  have hstop := takeWhile_append_stop isIncChar fname hf.2 ('\x7d' :: '\x7d' :: v)
    (by intro c cs' h; injection h with h1 _; subst h1; decide)
  unfold parseIncName
  rw [hstop.1, hstop.2, if_neg hf.1]
  rfl

theorem parseSegsAux_md_fail (fname v : List Char) (hf : isMdNameP fname) :
    parseSegsAux [] (fname ++ ('\x7d' :: '\x7d' :: v)) = ([], fname ++ ('\x7d' :: '\x7d' :: v)) := by
  have hfeq := mdName_split fname hf
  have hwall : (fname.takeWhile isWordChar).all isWordChar = true := all_takeWhile_self _ _
  have harr : fname ++ ('\x7d' :: '\x7d' :: v)
      = fname.takeWhile isWordChar ++ ('.' :: 'm' :: 'd' :: '\x7d' :: '\x7d' :: v) := by
    conv_lhs => rw [hfeq]
    simp
  rw [harr]
  rw [parseSegsAux_words _ hwall []]
  rw [parseSegsAux_fail _ _ (Or.inr ⟨'.', 'm' :: 'd' :: '\x7d' :: '\x7d' :: v, rfl, by decide, by decide⟩)]
  simp

theorem parseSegsAux_inc_fail (fname v : List Char) (hf : isIncNameP fname) :
    parseSegsAux [] (fname ++ ('\x7d' :: '\x7d' :: v)) = ([], fname ++ ('\x7d' :: '\x7d' :: v)) := by
  obtain ⟨hne, hall⟩ := hf
  have hsplit := List.takeWhile_append_dropWhile (p := isWordChar) (l := fname)
  have hwall : (fname.takeWhile isWordChar).all isWordChar = true := all_takeWhile_self _ _
  have hstep : fname ++ ('\x7d' :: '\x7d' :: v)
      = fname.takeWhile isWordChar ++ (fname.dropWhile isWordChar ++ ('\x7d' :: '\x7d' :: v)) := by
    conv_rhs => rw [← List.append_assoc, hsplit]
  rw [hstep, parseSegsAux_words _ hwall []]
  cases hdc : fname.dropWhile isWordChar with
  | nil =>
    simp only [List.nil_append]
    rw [parseSegsAux_fail _ _ (Or.inr ⟨'\x7d', '\x7d' :: v, rfl, by decide, by decide⟩)]
  | cons c d' =>
    have hcw : isWordChar c = false := dropWhile_head_false _ _ _ _ hdc
    have hcmem : c ∈ fname := by
      have h1 : c ∈ fname.takeWhile isWordChar ++ fname.dropWhile isWordChar := by
        rw [hdc]
        simp
      rwa [hsplit] at h1
    have hcinc : isIncChar c = true := (List.all_eq_true.mp hall) c hcmem
    have hcs : ¬ c = '/' := by
      intro e
      rw [e] at hcinc
      exact absurd hcinc (by decide)
    rw [show ((c :: d') ++ ('\x7d' :: '\x7d' :: v)) = c :: (d' ++ ('\x7d' :: '\x7d' :: v)) from rfl]
    rw [parseSegsAux_fail _ _ (Or.inr ⟨c, d' ++ ('\x7d' :: '\x7d' :: v), rfl, hcw, hcs⟩)]
    simp

/-! Length lemmas showing every directive match consumes at least one
character, so the scanner fuel never runs out. -/

theorem parseSegsAux_len : ∀ (cs cur : List Char),
    (parseSegsAux cur cs).2.length ≤ cur.length + cs.length := by
  intro cs
  induction cs with
  | nil => intro cur; simp [parseSegsAux]
  | cons c cs ih =>
    intro cur
    by_cases hw : isWordChar c = true
    · have := ih (cur ++ [c])
      rw [show parseSegsAux cur (c :: cs) = parseSegsAux (cur ++ [c]) cs by
        simp [parseSegsAux, hw]]
      simp only [List.length_append, List.length_cons, List.length_nil] at this ⊢
      omega
    · by_cases hs : c = '/'
      · subst hs
        have hwf : isWordChar '/' = false := by decide
        by_cases hc : cur = []
        · simp [parseSegsAux, hwf, hc]
        · have := ih []
          rw [show parseSegsAux cur ('/' :: cs)
                = (cur ++ '/' :: (parseSegsAux [] cs).1, (parseSegsAux [] cs).2) by
            simp [parseSegsAux, hwf, hc]]
          simp only [List.length_nil, List.length_cons] at this ⊢
          omega
      · rw [parseSegsAux_fail cur (c :: cs) (Or.inr ⟨c, cs, rfl, by simpa using hw, hs⟩)]
        simp

theorem parseMdName_len (cs f r : List Char) (h : parseMdName cs = some (f, r)) :
    r.length + 5 ≤ cs.length := by
  have hlen : (cs.takeWhile isWordChar).length + (cs.dropWhile isWordChar).length
      = cs.length := by
    have h2 := congrArg List.length (List.takeWhile_append_dropWhile (p := isWordChar) (l := cs))
    rw [List.length_append] at h2
    exact h2
  unfold parseMdName at h
  split at h
  · exact absurd h (by simp)
  · split at h
    next rest heq =>
      injection h with h1
      have hr : r = rest := (congrArg Prod.snd h1).symm
      subst hr
      rw [heq] at hlen
      simp only [List.length_cons] at hlen
      omega
    next => exact absurd h (by simp)

theorem parseIncName_len (cs f r : List Char) (h : parseIncName cs = some (f, r)) :
    r.length + 2 ≤ cs.length := by
  have hlen : (cs.takeWhile isIncChar).length + (cs.dropWhile isIncChar).length
      = cs.length := by
    have h2 := congrArg List.length (List.takeWhile_append_dropWhile (p := isIncChar) (l := cs))
    rw [List.length_append] at h2
    exact h2
  unfold parseIncName at h
  split at h
  · exact absurd h (by simp)
  · split at h
    next rest heq =>
      injection h with h1
      have hr : r = rest := (congrArg Prod.snd h1).symm
      subst hr
      rw [heq] at hlen
      simp only [List.length_cons] at hlen
      omega
    next => exact absurd h (by simp)

theorem matchDir_shrink (pre : List Char) (lk : Bool) :
    ∀ cs s f r, matchDir pre lk cs = some (s, f, r) → r.length < cs.length := by
  intro cs s f r h
  unfold matchDir at h
  split at h
  · split at h
    next c rest heq =>
      split at h
      · exact absurd h (by simp)
      · split at h
        · exact absurd h (by simp)
        · have hdroplen : (cs.drop pre.length).length = cs.length - pre.length :=
            List.length_drop _ _
          rw [heq] at hdroplen
          simp only [List.length_cons] at hdroplen
          have hseg : (parseSegs rest).2.length ≤ rest.length := by
            have := parseSegsAux_len rest []
            simpa [parseSegs] using this
          rw [Option.map_eq_some'] at h
          obtain ⟨q, hq, hqe⟩ := h
          have hr : q.2 = r := congrArg (fun z => z.2.2) hqe
          have hrl : q.2.length = r.length := congrArg List.length hr
          cases lk with
          | true =>
            rw [if_pos rfl] at hq
            have := parseMdName_len _ q.1 q.2 hq
            omega
          | false =>
            rw [if_neg (by simp)] at hq
            have := parseIncName_len _ q.1 q.2 hq
            omega
    next => exact absurd h (by simp)
  · exact absurd h (by simp)

/-! Scanner lemmas: the result of scanAux does not depend on the fuel once the
fuel is at least the length of the text, and the step equations of scanRepl. -/

theorem scanAux_congr (m : List Char → Option (List Char × List Char × List Char))
    (repl : List Char → List Char → Option (List Char))
    (hm : ∀ cs s f r, m cs = some (s, f, r) → r.length < cs.length) :
    ∀ (n : Nat) (cs : List Char), cs.length ≤ n →
      ∀ f₁ f₂, cs.length ≤ f₁ → cs.length ≤ f₂ →
        scanAux m repl f₁ cs = scanAux m repl f₂ cs := by
  intro n
  induction n with
  | zero =>
    intro cs hcs f₁ f₂ _ _
    have hnil : cs = [] := by
      cases cs with
      | nil => rfl
      | cons c cs => simp at hcs
    subst hnil
    cases f₁ <;> cases f₂ <;> rfl
  | succ n ih =>
    intro cs hcs f₁ f₂ h₁ h₂
    cases cs with
    | nil => cases f₁ <;> cases f₂ <;> rfl
    | cons c cs =>
      simp only [List.length_cons] at hcs h₁ h₂
      cases f₁ with
      | zero => omega
      | succ g₁ =>
        cases f₂ with
        | zero => omega
        | succ g₂ =>
          cases hq : m (c :: cs) with
          | none =>
            simp only [scanAux, hq]
            rw [ih cs (by omega) g₁ g₂ (by omega) (by omega)]
          | some q =>
            have hr : q.2.2.length < cs.length + 1 := by
              have := hm (c :: cs) q.1 q.2.1 q.2.2 (by rw [hq])
              simpa using this
            simp only [scanAux, hq]
            rw [ih q.2.2 (by omega) g₁ g₂ (by omega) (by omega)]

theorem scanRepl_cons_none (m : List Char → Option (List Char × List Char × List Char))
    (repl : List Char → List Char → Option (List Char)) (c : Char) (cs : List Char)
    (h : m (c :: cs) = none) :
    scanRepl m repl (c :: cs) = (scanRepl m repl cs).map fun t => c :: t := by
  show scanAux m repl (cs.length + 1) (c :: cs) = _
  simp only [scanAux, h]
  rfl

theorem scanRepl_cons_some (m : List Char → Option (List Char × List Char × List Char))
    (repl : List Char → List Char → Option (List Char))
    (hm : ∀ cs s f r, m cs = some (s, f, r) → r.length < cs.length)
    (c : Char) (cs s f r : List Char) (h : m (c :: cs) = some (s, f, r)) :
    scanRepl m repl (c :: cs)
      = (repl s f).bind fun rep => (scanRepl m repl r).map fun t => rep ++ t := by
  have hr : r.length < cs.length + 1 := by
    have := hm (c :: cs) s f r h
    simpa using this
  show scanAux m repl (cs.length + 1) (c :: cs) = _
  simp only [scanAux, h]
  rw [scanAux_congr m repl hm r.length r (Nat.le_refl _) cs.length r.length
    (by omega) (Nat.le_refl _)]
  rfl

theorem scanRepl_some (m : List Char → Option (List Char × List Char × List Char))
    (repl : List Char → List Char → Option (List Char))
    (hm : ∀ cs s f r, m cs = some (s, f, r) → r.length < cs.length)
    (cs s f r : List Char) (hne : cs ≠ []) (h : m cs = some (s, f, r)) :
    scanRepl m repl cs
      = (repl s f).bind fun rep => (scanRepl m repl r).map fun t => rep ++ t := by
  cases cs with
  | nil => exact absurd rfl hne
  | cons c cs => exact scanRepl_cons_some m repl hm c cs s f r h

theorem scanRepl_append_nomatch (m : List Char → Option (List Char × List Char × List Char))
    (repl : List Char → List Char → Option (List Char)) (u s : List Char)
    (hu : ∀ i, i < u.length → m ((u ++ s).drop i) = none) :
    scanRepl m repl (u ++ s) = (scanRepl m repl s).map fun t => u ++ t := by
  induction u with
  | nil =>
    simp only [List.nil_append]
    cases scanRepl m repl s <;> simp
  | cons c u' ih =>
    have h0 : m (c :: (u' ++ s)) = none := by
      have := hu 0 (by simp)
      simpa using this
    rw [show ((c :: u') ++ s) = c :: (u' ++ s) from rfl]
    rw [scanRepl_cons_none m repl c (u' ++ s) h0]
    rw [ih fun i hi => by
      have := hu (i + 1) (by simpa using Nat.succ_lt_succ hi)
      simpa [List.drop_succ_cons] using this]
    cases scanRepl m repl s <;> simp

theorem scanRepl_id (m : List Char → Option (List Char × List Char × List Char))
    (repl : List Char → List Char → Option (List Char)) (s : List Char)
    (hs : ∀ i, i < s.length → m (s.drop i) = none) :
    scanRepl m repl s = some s := by
  induction s with
  | nil => rfl
  | cons c cs ih =>
    have h0 : m (c :: cs) = none := by
      have := hs 0 (by simp)
      simpa using this
    rw [scanRepl_cons_none m repl c cs h0]
    rw [ih fun i hi => by
      have := hs (i + 1) (by simpa using Nat.succ_lt_succ hi)
      simpa [List.drop_succ_cons] using this]
    rfl

/-! Full-match lemmas: matchDir on a well-formed directive tag captures the
segment group and the file-name group and leaves the trailing text. -/

theorem matchDir_hit_link (c : Char) (hc : ¬ c = '\n') (ws : List (List Char))
    (fname v : List Char) (hws : goodSegs ws) (hf : isMdNameP fname) :
    matchDir LINKPRE true (LINKPRE ++ (c :: '/' :: (joinSegs ws ++ (fname ++ ('\x7d' :: '\x7d' :: v)))))
      = some (joinSegs ws, fname, v) := by
  have hps : parseSegs (joinSegs ws ++ (fname ++ ('\x7d' :: '\x7d' :: v)))
      = (joinSegs ws, fname ++ ('\x7d' :: '\x7d' :: v)) := by
    unfold parseSegs
    exact parseSegsAux_join ws _ hws.2 (parseSegsAux_md_fail fname v hf)
  unfold matchDir
  rw [if_pos (isPrefixOf_append_self _ _), List.drop_left]
  show (if c = '\n' then none
      else if (parseSegs (joinSegs ws ++ (fname ++ ('\x7d' :: '\x7d' :: v)))).1 = [] then none
      else _) = _
  rw [if_neg hc, hps]
  simp only [if_pos rfl]
  rw [if_neg (joinSegs_ne_nil ws hws.1)]
  rw [parseMdName_hit fname v hf]
  rfl

theorem matchDir_hit_inc (c : Char) (hc : ¬ c = '\n') (ws : List (List Char))
    (fname v : List Char) (hws : goodSegs ws) (hf : isIncNameP fname) :
    matchDir INCPRE false (INCPRE ++ (c :: '/' :: (joinSegs ws ++ (fname ++ ('\x7d' :: '\x7d' :: v)))))
      = some (joinSegs ws, fname, v) := by
  have hps : parseSegs (joinSegs ws ++ (fname ++ ('\x7d' :: '\x7d' :: v)))
      = (joinSegs ws, fname ++ ('\x7d' :: '\x7d' :: v)) := by
    unfold parseSegs
    exact parseSegsAux_join ws _ hws.2 (parseSegsAux_inc_fail fname v hf)
  unfold matchDir
  rw [if_pos (isPrefixOf_append_self _ _), List.drop_left]
  show (if c = '\n' then none
      else if (parseSegs (joinSegs ws ++ (fname ++ ('\x7d' :: '\x7d' :: v)))).1 = [] then none
      else _) = _
  rw [if_neg hc, hps]
  rw [if_neg (joinSegs_ne_nil ws hws.1)]
  rw [if_neg (by simp)]
  rw [parseIncName_hit fname v hf]
  rfl

/-! Miss lemmas: positions at which matchDir cannot match, used to show that
a directive-shaped text with no directory segment is scanned through
verbatim at every position. -/

theorem isPrefixOf_append_false (p : List Char) :
    ∀ (d w : List Char), ¬ p.take d.length = d.take p.length →
    p.isPrefixOf (d ++ w) = false := by
  induction p with
  | nil => intro d w h; exact absurd (by simp) h
  | cons a p ih =>
    intro d w h
    cases d with
    | nil => exact absurd (by simp) h
    | cons c d' =>
      show ((a == c) && p.isPrefixOf (d' ++ w)) = false
      by_cases hac : a = c
      · subst hac
        have h' : ¬ p.take d'.length = d'.take p.length := fun he => h (by
          show (a :: p).take (d'.length + 1) = (a :: d').take (p.length + 1)
          rw [List.take_succ_cons, List.take_succ_cons, he])
        simp [ih d' w h']
      · have hbe : (a == c) = false := beq_eq_false_iff_ne.mpr hac
        simp [hbe]

theorem matchDir_none_drop (pre : List Char) (lk : Bool) (u w : List Char) (i : Nat)
    (hi : i ≤ u.length)
    (h : ¬ pre.take ((u.drop i).length) = (u.drop i).take pre.length) :
    matchDir pre lk ((u ++ w).drop i) = none := by
  have hsplit : (u ++ w).drop i = u.drop i ++ w := by
    rw [List.drop_append_eq_append_drop]
    rw [show i - u.length = 0 by omega]
    rw [List.drop_zero]
  rw [hsplit]
  unfold matchDir
  rw [isPrefixOf_append_false pre (u.drop i) w h]
  simp

theorem matchDir_miss_nosegs (pre : List Char) (lk : Bool) (fname : List Char)
    (hps : parseSegsAux [] (fname ++ ('\x7d' :: '\x7d' :: []))
      = ([], fname ++ ('\x7d' :: '\x7d' :: []))) :
    matchDir pre lk (pre ++ ('.' :: '/' :: (fname ++ ('\x7d' :: '\x7d' :: [])))) = none := by
  unfold matchDir
  rw [if_pos (isPrefixOf_append_self _ _), List.drop_left]
  show (if ('.' : Char) = '\n' then none
      else if (parseSegs (fname ++ ('\x7d' :: '\x7d' :: []))).1 = [] then none
      else _) = none
  rw [if_neg (show ¬ ('.' : Char) = '\n' by decide)]
  unfold parseSegs
  rw [hps]
  rfl

theorem matchDir_none_no_lbrace (pre : List Char) (hpre : pre.head? = some '\x7b')
    (lk : Bool) (s : List Char) (hs : ∀ c ∈ s, ¬ c = '\x7b') (i : Nat) :
    matchDir pre lk (s.drop i) = none := by
  have hnp : pre.isPrefixOf (s.drop i) = false := by
    cases pre with
    | nil => simp at hpre
    | cons p pt =>
      have hp : p = '\x7b' := by simpa using hpre
      subst hp
      cases hd : s.drop i with
      | nil => rfl
      | cons c rest =>
        have hcm : c ∈ s := List.mem_of_mem_drop (by rw [hd]; exact List.mem_cons_self _ _)
        have hcne : ¬ c = '\x7b' := hs c hcm
        show (('\x7b' == c) && pt.isPrefixOf rest) = false
        have hbe : ('\x7b' == c) = false := beq_eq_false_iff_ne.mpr (fun e => hcne e.symm)
        simp [hbe]
  unfold matchDir
  rw [hnp]
  simp

theorem mdName_no_lbrace (fname : List Char) (hf : isMdNameP fname) :
    ∀ c ∈ fname ++ ('\x7d' :: '\x7d' :: []), ¬ c = '\x7b' := by
  intro c hc e
  subst e
  rw [List.mem_append] at hc
  cases hc with
  | inl h =>
    rw [mdName_split fname hf, List.mem_append] at h
    cases h with
    | inl h2 =>
      have hcw : isWordChar '\x7b' = true :=
        (List.all_eq_true.mp (all_takeWhile_self isWordChar fname)) _ h2
      exact absurd hcw (by decide)
    | inr h2 => exact absurd h2 (by decide)
  | inr h => exact absurd h (by decide)

theorem incName_no_lbrace (fname : List Char) (hf : isIncNameP fname) :
    ∀ c ∈ fname ++ ('\x7d' :: '\x7d' :: []), ¬ c = '\x7b' := by
  intro c hc e
  subst e
  rw [List.mem_append] at hc
  cases hc with
  | inl h =>
    have hcc : isIncChar '\x7b' = true := (List.all_eq_true.mp hf.2) _ h
    exact absurd hcc (by decide)
  | inr h => exact absurd h (by decide)

/-! Claim theorems about the directive resolvers and the pipeline. -/

/-- Claim C8: in Dynamic mode every link-or-include directive is replaced,
with no filesystem access (the context's canon and fs are arbitrary and the
Dynamic branch never consults them), by the fixed migration text with the
file name and the dirpath-filename concatenation interpolated; in particular
the spec scenario input produces its expected output. -/
theorem c8 :
    (∀ (ctx : BuildContext) (ws : List (List Char)) (fname : List Char),
        ctx.mode = .dynamic → goodSegs ws → isMdNameP fname →
        linkTransform ctx
            (chars ("\x7b\x7blink or include|./") ++ (joinSegs ws ++ (fname ++ chars ("\x7d\x7d"))))
          = some (chars ("This section is migrated. Please see [")
              ++ (fname ++ (chars ("](./") ++ (joinSegs ws ++ (fname ++ chars (")")))))))
    ∧ linkTransform dynCtx (chars ("see \x7b\x7blink or include|./sub/page.md\x7d\x7d"))
        = some (chars ("see This section is migrated. Please see [page.md](./sub/page.md)")) := by
  constructor
  · intro ctx ws fname hmode hws hf
    show scanRepl (matchDir LINKPRE true) (linkRepl ctx)
        (LINKPRE ++ ('.' :: '/' :: (joinSegs ws ++ (fname ++ ('\x7d' :: '\x7d' :: []))))) = _
    rw [scanRepl_some _ _ (matchDir_shrink LINKPRE true) _ _ _ _
      (by simp [LINKPRE, chars])
      (matchDir_hit_link '.' (by decide) ws fname [] hws hf)]
    unfold linkRepl
    rw [hmode]
    show (some (chars ("This section is migrated. Please see [") ++ fname ++ chars ("](./")
        ++ joinSegs ws ++ fname ++ chars (")"))).bind
        (fun rep => (scanRepl (matchDir LINKPRE true) (linkRepl ctx) []).map fun t => rep ++ t) = _
    simp [scanRepl, scanAux, List.append_assoc]
  · decide

/-- Claim C8, witness for the general conjunct at a concrete directive. -/
theorem c8_witness :
    linkTransform dynCtx (chars ("\x7b\x7blink or include|./a/b.md\x7d\x7d"))
      = some (chars ("This section is migrated. Please see [b.md](./a/b.md)")) :=
  c8.1 dynCtx [chars ("a")] (chars ("b.md")) rfl (by decide) (by decide)

/-- Claim C10: both directive patterns spell the leading dot-slash with an
unescaped regex dot, so a tag whose path prefix is any single character
(other than newline) followed by a slash is recognized and resolved exactly
as if the prefix were dot-slash (first two conjuncts; the captured groups do
not contain the prefix character, so path resolution is unchanged); and both
patterns require at least one directory segment, so for every well-formed
file name a tag whose path is directly that file name under dot-slash, with
no intermediate directory, is never recognized and is left verbatim in the
output (last two conjuncts, universal over the file name). -/
theorem c10 :
    (∀ c : Char, ¬ c = '\n' →
        linkTransform dynCtx
            (chars ("\x7b\x7blink or include|") ++ (c :: '/' :: chars ("a/file.md\x7d\x7d")))
          = some (chars ("This section is migrated. Please see [file.md](./a/file.md)")))
    ∧ (∀ c : Char, ¬ c = '\n' →
        alwaysTransform ctx10 (chars ("\x7b\x7binclude|") ++ (c :: '/' :: chars ("a/file.txt\x7d\x7d")))
          = some (chars ("RAWX")))
    ∧ (∀ fname : List Char, isMdNameP fname →
        linkTransform dynCtx (chars ("\x7b\x7blink or include|./") ++ (fname ++ chars ("\x7d\x7d")))
          = some (chars ("\x7b\x7blink or include|./") ++ (fname ++ chars ("\x7d\x7d"))))
    ∧ (∀ fname : List Char, isIncNameP fname →
        alwaysTransform ctx10 (chars ("\x7b\x7binclude|./") ++ (fname ++ chars ("\x7d\x7d")))
          = some (chars ("\x7b\x7binclude|./") ++ (fname ++ chars ("\x7d\x7d")))) := by
  refine ⟨?_, ?_, ?_, ?_⟩
  · intro c hc
    show scanRepl (matchDir LINKPRE true) (linkRepl dynCtx)
        (LINKPRE ++ (c :: '/' :: (joinSegs [chars ("a")] ++ (chars ("file.md") ++ ('\x7d' :: '\x7d' :: []))))) = _
    rw [scanRepl_some _ _ (matchDir_shrink LINKPRE true) _ _ _ _
      (by simp [LINKPRE, chars])
      (matchDir_hit_link c hc [chars ("a")] (chars ("file.md")) [] (by decide) (by decide))]
    decide
  · intro c hc
    show scanRepl (matchDir INCPRE false) (includeRepl ctx10)
        (INCPRE ++ (c :: '/' :: (joinSegs [chars ("a")] ++ (chars ("file.txt") ++ ('\x7d' :: '\x7d' :: []))))) = _
    rw [scanRepl_some _ _ (matchDir_shrink INCPRE false) _ _ _ _
      (by simp [INCPRE, chars])
      (matchDir_hit_inc c hc [chars ("a")] (chars ("file.txt")) [] (by decide) (by decide))]
    decide
  · intro fname hf
    have hmis : ∀ j, j < (chars ("\x7b\x7blink or include|./")).length → 0 < j →
        ¬ LINKPRE.take (((chars ("\x7b\x7blink or include|./")).drop j).length)
          = ((chars ("\x7b\x7blink or include|./")).drop j).take LINKPRE.length := by decide
    have hu : ∀ i, i < (chars ("\x7b\x7blink or include|./")).length →
        matchDir LINKPRE true
          ((chars ("\x7b\x7blink or include|./") ++ (fname ++ ('\x7d' :: '\x7d' :: []))).drop i)
          = none := by
      intro i hi
      cases i with
      | zero => exact matchDir_miss_nosegs LINKPRE true fname (parseSegsAux_md_fail fname [] hf)
      | succ k =>
        exact matchDir_none_drop LINKPRE true (chars ("\x7b\x7blink or include|./"))
          (fname ++ ('\x7d' :: '\x7d' :: [])) (k + 1) (Nat.le_of_lt hi)
          (hmis (k + 1) hi (Nat.succ_pos k))
    have hw : ∀ i, i < (fname ++ ('\x7d' :: '\x7d' :: [])).length →
        matchDir LINKPRE true ((fname ++ ('\x7d' :: '\x7d' :: [])).drop i) = none := by
      intro i _
      exact matchDir_none_no_lbrace LINKPRE rfl true _ (mdName_no_lbrace fname hf) i
    show scanRepl (matchDir LINKPRE true) (linkRepl dynCtx)
        (chars ("\x7b\x7blink or include|./") ++ (fname ++ ('\x7d' :: '\x7d' :: []))) = _
    rw [scanRepl_append_nomatch _ _ _ _ hu]
    rw [scanRepl_id _ _ _ hw]
    rfl
  · intro fname hf
    have hmis : ∀ j, j < (chars ("\x7b\x7binclude|./")).length → 0 < j →
        ¬ INCPRE.take (((chars ("\x7b\x7binclude|./")).drop j).length)
          = ((chars ("\x7b\x7binclude|./")).drop j).take INCPRE.length := by decide
    have hu : ∀ i, i < (chars ("\x7b\x7binclude|./")).length →
        matchDir INCPRE false
          ((chars ("\x7b\x7binclude|./") ++ (fname ++ ('\x7d' :: '\x7d' :: []))).drop i)
          = none := by
      intro i hi
      cases i with
      | zero => exact matchDir_miss_nosegs INCPRE false fname (parseSegsAux_inc_fail fname [] hf)
      | succ k =>
        exact matchDir_none_drop INCPRE false (chars ("\x7b\x7binclude|./"))
          (fname ++ ('\x7d' :: '\x7d' :: [])) (k + 1) (Nat.le_of_lt hi)
          (hmis (k + 1) hi (Nat.succ_pos k))
    have hw : ∀ i, i < (fname ++ ('\x7d' :: '\x7d' :: [])).length →
        matchDir INCPRE false ((fname ++ ('\x7d' :: '\x7d' :: [])).drop i) = none := by
      intro i _
      exact matchDir_none_no_lbrace INCPRE rfl false _ (incName_no_lbrace fname hf) i
    show scanRepl (matchDir INCPRE false) (includeRepl ctx10)
        (chars ("\x7b\x7binclude|./") ++ (fname ++ ('\x7d' :: '\x7d' :: []))) = _
    rw [scanRepl_append_nomatch _ _ _ _ hu]
    rw [scanRepl_id _ _ _ hw]
    rfl

/-- Claim C10, witness: the two prefix-character conjuncts at the concrete
character X, and the two no-directory-segment conjuncts at the concrete file
names of each pattern. -/
theorem c10_witness :
    linkTransform dynCtx (chars ("\x7b\x7blink or include|X/a/file.md\x7d\x7d"))
      = some (chars ("This section is migrated. Please see [file.md](./a/file.md)"))
    ∧ alwaysTransform ctx10 (chars ("\x7b\x7binclude|X/a/file.txt\x7d\x7d"))
      = some (chars ("RAWX"))
    ∧ linkTransform dynCtx (chars ("\x7b\x7blink or include|./file.md\x7d\x7d"))
      = some (chars ("\x7b\x7blink or include|./file.md\x7d\x7d"))
    ∧ alwaysTransform ctx10 (chars ("\x7b\x7binclude|./file.txt\x7d\x7d"))
      = some (chars ("\x7b\x7binclude|./file.txt\x7d\x7d")) :=
  ⟨c10.1 'X' (by decide), c10.2.1 'X' (by decide),
   c10.2.2.1 (chars ("file.md")) (by decide), c10.2.2.2 (chars ("file.txt")) (by decide)⟩

/-- Claim C9: in Static and in Spoiler mode, when the referenced fragment
cannot be canonicalized, opened or read (the canonicalize-then-read chain
yields none), the whole pass aborts with none at the first such directive:
the trailing text v, which may hold further directives, is never processed,
and the pipeline as a whole yields none, so no output is written. -/
theorem c9 (ctx : BuildContext) (ws : List (List Char)) (fname v : List Char)
    (hmode : ctx.mode = .static ∨ ctx.mode = .spoiler) (hws : goodSegs ws) (hf : isMdNameP fname)
    (hfail : (ctx.canon (ctx.inputDir ++ joinSegs ws ++ fname)).bind ctx.fs = none) :
    linkTransform ctx
        (chars ("\x7b\x7blink or include|./") ++ (joinSegs ws ++ (fname ++ (chars ("\x7d\x7d") ++ v)))) = none
    ∧ pipeline ctx
        (chars ("\x7b\x7blink or include|./") ++ (joinSegs ws ++ (fname ++ (chars ("\x7d\x7d") ++ v)))) = none := by
  have hrepl : linkRepl ctx (joinSegs ws) fname = none := by
    cases hmode with
    | inl hm =>
      unfold linkRepl
      rw [hm]
      show (ctx.canon (ctx.inputDir ++ joinSegs ws ++ fname)).bind
          (fun cp => (ctx.fs cp).map includeText) = none
      cases hcan : ctx.canon (ctx.inputDir ++ joinSegs ws ++ fname) with
      | none => rfl
      | some cp =>
        rw [hcan] at hfail
        simp only [Option.some_bind] at hfail
        simp [hfail]
    | inr hm =>
      unfold linkRepl
      rw [hm]
      show (ctx.canon (ctx.inputDir ++ joinSegs ws ++ fname)).bind
          (fun cp => (ctx.fs cp).map fun buf =>
            chars ("<details><summary>content of ") ++ (ctx.inputDir ++ joinSegs ws ++ fname)
              ++ chars ("</summary>\n\n") ++ includeText buf ++ chars ("\n</details>")) = none
      cases hcan : ctx.canon (ctx.inputDir ++ joinSegs ws ++ fname) with
      | none => rfl
      | some cp =>
        rw [hcan] at hfail
        simp only [Option.some_bind] at hfail
        simp [hfail]
  have hlink : linkTransform ctx
      (chars ("\x7b\x7blink or include|./") ++ (joinSegs ws ++ (fname ++ (chars ("\x7d\x7d") ++ v)))) = none := by
    show scanRepl (matchDir LINKPRE true) (linkRepl ctx)
        (LINKPRE ++ ('.' :: '/' :: (joinSegs ws ++ (fname ++ ('\x7d' :: '\x7d' :: v))))) = none
    rw [scanRepl_some _ _ (matchDir_shrink LINKPRE true) _ _ _ _
      (by simp [LINKPRE, chars])
      (matchDir_hit_link '.' (by decide) ws fname v hws hf)]
    rw [hrepl]
    rfl
  refine ⟨hlink, ?_⟩
  show (linkTransform ctx _).bind _ = none
  rw [hlink]
  rfl

/-- Claim C9, witness: a Static context and a Spoiler context, each with an
empty filesystem, abort on the first directive and never reach the second
one in the trailing text. -/
theorem c9_witness :
    (linkTransform ctx9
        (chars ("\x7b\x7blink or include|./a/b.md\x7d\x7d\x7b\x7blink or include|./c/d.md\x7d\x7d")) = none
      ∧ pipeline ctx9
        (chars ("\x7b\x7blink or include|./a/b.md\x7d\x7d\x7b\x7blink or include|./c/d.md\x7d\x7d")) = none)
    ∧ (linkTransform ctx9s
        (chars ("\x7b\x7blink or include|./a/b.md\x7d\x7d\x7b\x7blink or include|./c/d.md\x7d\x7d")) = none
      ∧ pipeline ctx9s
        (chars ("\x7b\x7blink or include|./a/b.md\x7d\x7d\x7b\x7blink or include|./c/d.md\x7d\x7d")) = none) :=
  ⟨c9 ctx9 [chars ("a")] (chars ("b.md")) (chars ("\x7b\x7blink or include|./c/d.md\x7d\x7d"))
    (Or.inl rfl) (by decide) (by decide) (by decide),
   c9 ctx9s [chars ("a")] (chars ("b.md")) (chars ("\x7b\x7blink or include|./c/d.md\x7d\x7d"))
    (Or.inr rfl) (by decide) (by decide) (by decide)⟩

/-- Claim C6: for every input in which no position matches either directive
pattern, the two-pass pipeline is the identity (first conjunct), and more
generally both passes copy byte-for-byte every prefix in which no match
starts (remaining conjuncts). -/
theorem c6 (ctx : BuildContext) :
    (∀ s : List Char,
        (∀ i, i < s.length → matchDir LINKPRE true (s.drop i) = none) →
        (∀ i, i < s.length → matchDir INCPRE false (s.drop i) = none) →
        pipeline ctx s = some s)
    ∧ (∀ u t : List Char,
        (∀ i, i < u.length → matchDir LINKPRE true ((u ++ t).drop i) = none) →
        linkTransform ctx (u ++ t) = (linkTransform ctx t).map fun r => u ++ r)
    ∧ (∀ u t : List Char,
        (∀ i, i < u.length → matchDir INCPRE false ((u ++ t).drop i) = none) →
        alwaysTransform ctx (u ++ t) = (alwaysTransform ctx t).map fun r => u ++ r) := by
  refine ⟨?_, ?_, ?_⟩
  · intro s h1 h2
    have ha : linkTransform ctx s = some s := scanRepl_id _ _ s h1
    have hb : alwaysTransform ctx s = some s := scanRepl_id _ _ s h2
    show (linkTransform ctx s).bind _ = some s
    rw [ha]
    simpa using hb
  · intro u t h
    exact scanRepl_append_nomatch _ _ u t h
  · intro u t h
    exact scanRepl_append_nomatch _ _ u t h

/-- Claim C6, witness: a directive-free text passes through the pipeline
unchanged, and both passes copy a matchless prefix. -/
theorem c6_witness :
    pipeline dynCtx (chars ("hello # world")) = some (chars ("hello # world"))
    ∧ linkTransform dynCtx (chars ("ab") ++ chars ("cd"))
        = (linkTransform dynCtx (chars ("cd"))).map (fun r => chars ("ab") ++ r)
    ∧ alwaysTransform dynCtx (chars ("ab") ++ chars ("cd"))
        = (alwaysTransform dynCtx (chars ("cd"))).map (fun r => chars ("ab") ++ r) :=
  ⟨(c6 dynCtx).1 (chars ("hello # world")) (by decide) (by decide),
   (c6 dynCtx).2.1 (chars ("ab")) (chars ("cd")) (by decide),
   (c6 dynCtx).2.2 (chars ("ab")) (chars ("cd")) (by decide)⟩

/-- Claim C7: on a fragment containing no START and no END marker, resolving
an always-include directive pointing at it splices the raw content buf
verbatim, while a link-or-include directive in Static mode on the same
fragment yields the empty text. -/
theorem c7 (buf : List Char)
    (hs : ∀ i, i < buf.length → occursAt START buf i = false)
    (_he : ∀ i, i < buf.length → occursAt ENDM buf i = false) :
    alwaysTransform (ctx7 buf) (chars ("\x7b\x7binclude|./d1/frag.md\x7d\x7d")) = some buf
    ∧ linkTransform (ctx7 buf) (chars ("\x7b\x7blink or include|./d1/frag.md\x7d\x7d")) = some [] := by
  have hempty : includeText buf = [] := by
    unfold includeText extractCore
    rw [dropAfterFirst_none START buf hs]
    rfl
  constructor
  · show scanRepl (matchDir INCPRE false) (includeRepl (ctx7 buf))
        (INCPRE ++ ('.' :: '/' :: (joinSegs [chars ("d1")] ++ (chars ("frag.md") ++ ('\x7d' :: '\x7d' :: []))))) = some buf
    rw [scanRepl_some _ _ (matchDir_shrink INCPRE false) _ _ _ _
      (by simp [INCPRE, chars])
      (matchDir_hit_inc '.' (by decide) [chars ("d1")] (chars ("frag.md")) [] (by decide) (by decide))]
    rw [show includeRepl (ctx7 buf) (joinSegs [chars ("d1")]) (chars ("frag.md")) = some buf from rfl]
    simp [scanRepl, scanAux]
  · show scanRepl (matchDir LINKPRE true) (linkRepl (ctx7 buf))
        (LINKPRE ++ ('.' :: '/' :: (joinSegs [chars ("d1")] ++ (chars ("frag.md") ++ ('\x7d' :: '\x7d' :: []))))) = some []
    rw [scanRepl_some _ _ (matchDir_shrink LINKPRE true) _ _ _ _
      (by simp [LINKPRE, chars])
      (matchDir_hit_link '.' (by decide) [chars ("d1")] (chars ("frag.md")) [] (by decide) (by decide))]
    rw [show linkRepl (ctx7 buf) (joinSegs [chars ("d1")]) (chars ("frag.md"))
          = some (includeText buf) from rfl]
    rw [hempty]
    rfl

/-- Claim C7, witness at a concrete marker-free fragment. -/
theorem c7_witness :
    alwaysTransform (ctx7 (chars ("just text"))) (chars ("\x7b\x7binclude|./d1/frag.md\x7d\x7d"))
      = some (chars ("just text"))
    ∧ linkTransform (ctx7 (chars ("just text"))) (chars ("\x7b\x7blink or include|./d1/frag.md\x7d\x7d"))
      = some [] :=
  c7 (chars ("just text")) (by decide) (by decide)

/-- Claim C4, counterexample: the claim says the summary line interpolates
the fragment's canonical absolute path, but the source builds the summary
from the joined path before calling canonicalize, so in a context where the
two differ the output holds the non-canonical joined path and not the
canonical one. -/
theorem c4_counterexample :
    linkTransform ctx4 (chars ("\x7b\x7blink or include|./d1/f1.md\x7d\x7d"))
      = some (chars ("<details><summary>content of d1/f1.md</summary>\n\nBody\n\n</details>"))
    ∧ linkTransform ctx4 (chars ("\x7b\x7blink or include|./d1/f1.md\x7d\x7d"))
      ≠ some (chars ("<details><summary>content of /abs/d1/f1.md</summary>\n\nBody\n\n</details>")) := by
  constructor
  · decide
  · decide

/-- Claim C4, amended: in Spoiler mode every link-or-include directive is
replaced by the details-summary wrapper followed by a blank line, the
extracted fragment text, a newline and the closing tag, where the
interpolated path is the joined path (input directory plus directory
segments plus file name) before canonicalization; the canonical path cp is
used only to read the fragment. -/
theorem c4_amended (ctx : BuildContext) (ws : List (List Char)) (fname cp buf : List Char)
    (hmode : ctx.mode = .spoiler) (hws : goodSegs ws) (hf : isMdNameP fname)
    (hcanon : ctx.canon (ctx.inputDir ++ joinSegs ws ++ fname) = some cp)
    (hfs : ctx.fs cp = some buf) :
    linkTransform ctx
        (chars ("\x7b\x7blink or include|./") ++ (joinSegs ws ++ (fname ++ chars ("\x7d\x7d"))))
      = some (chars ("<details><summary>content of ") ++ (ctx.inputDir ++ joinSegs ws ++ fname)
          ++ chars ("</summary>\n\n") ++ includeText buf ++ chars ("\n</details>")) := by
  have hrepl : linkRepl ctx (joinSegs ws) fname
      = some (chars ("<details><summary>content of ") ++ (ctx.inputDir ++ joinSegs ws ++ fname)
          ++ chars ("</summary>\n\n") ++ includeText buf ++ chars ("\n</details>")) := by
    unfold linkRepl
    rw [hmode]
    show (ctx.canon (ctx.inputDir ++ joinSegs ws ++ fname)).bind
        (fun cp2 => (ctx.fs cp2).map fun b =>
          chars ("<details><summary>content of ") ++ (ctx.inputDir ++ joinSegs ws ++ fname)
            ++ chars ("</summary>\n\n") ++ includeText b ++ chars ("\n</details>")) = _
    rw [hcanon]
    simp [hfs]
  show scanRepl (matchDir LINKPRE true) (linkRepl ctx)
      (LINKPRE ++ ('.' :: '/' :: (joinSegs ws ++ (fname ++ ('\x7d' :: '\x7d' :: []))))) = _
  rw [scanRepl_some _ _ (matchDir_shrink LINKPRE true) _ _ _ _
    (by simp [LINKPRE, chars])
    (matchDir_hit_link '.' (by decide) ws fname [] hws hf)]
  rw [hrepl]
  simp [scanRepl, scanAux]

/-- Claim C4, witness for the amended statement: the summary shows the
joined path under the input directory, not the distinct canonical path. -/
theorem c4_amended_witness :
    linkTransform ctx4w (chars ("\x7b\x7blink or include|./d2/g.md\x7d\x7d"))
      = some (chars ("<details><summary>content of docs/d2/g.md</summary>\n\nW\n</details>")) :=
  c4_amended ctx4w [chars ("d2")] (chars ("g.md")) (chars ("/abs/docs/d2/g.md"))
    (chars ("<!\x2d\x2d START \x2d\x2d>W<!\x2d\x2d END \x2d\x2d>"))
    rfl (by decide) (by decide) (by decide) (by decide)

/-- Claim C3, counterexample: the claim says an always-include tag introduced
verbatim by a fragment during the first pass is never expanded by the second
pass; but on this context the first pass splices exactly such a tag out of
frag3, and the pipeline output is the referenced raw content, not the tag
text, so the second pass did expand it. -/
theorem c3_counterexample :
    pipeline (ctx3 (chars ("RAW"))) (chars ("\x7b\x7blink or include|./d1/f1.md\x7d\x7d"))
      = some (chars ("RAW"))
    ∧ chars ("RAW") ≠ chars ("\x7b\x7binclude|./d2/f2.txt\x7d\x7d") := by
  constructor
  · decide
  · decide

/-- Claim C3, amended: the pipeline runs the link-or-include resolver first
and the always-include resolver over the result of that first pass (first
conjunct, the pass order); consequently an always-include tag introduced
verbatim by a fragment spliced during the first pass IS expanded by the
second pass even though it was absent from the original input: for every
content r of the referenced asset the pipeline output is r itself. -/
theorem c3_amended (r : List Char) :
    (∀ (ctx : BuildContext) (s : List Char),
        pipeline ctx s = (linkTransform ctx s).bind fun t => alwaysTransform ctx t)
    ∧ pipeline (ctx3 r) (chars ("\x7b\x7blink or include|./d1/f1.md\x7d\x7d")) = some r := by
  constructor
  · intro ctx s
    rfl
  · have h1 : linkRepl (ctx3 r) (chars ("d1/")) (chars ("f1.md"))
        = some (chars ("\x7b\x7binclude|./d2/f2.txt\x7d\x7d")) := rfl
    have h2 : linkTransform (ctx3 r) (chars ("\x7b\x7blink or include|./d1/f1.md\x7d\x7d"))
        = some (chars ("\x7b\x7binclude|./d2/f2.txt\x7d\x7d")) := by
      show scanRepl (matchDir LINKPRE true) (linkRepl (ctx3 r))
          (chars ("\x7b\x7blink or include|./d1/f1.md\x7d\x7d"))
        = some (chars ("\x7b\x7binclude|./d2/f2.txt\x7d\x7d"))
      rw [scanRepl_some _ _ (matchDir_shrink LINKPRE true)
        (chars ("\x7b\x7blink or include|./d1/f1.md\x7d\x7d")) (chars ("d1/")) (chars ("f1.md")) []
        (by decide) (by decide)]
      rw [h1]
      simp [scanRepl, scanAux]
    have h3 : alwaysTransform (ctx3 r) (chars ("\x7b\x7binclude|./d2/f2.txt\x7d\x7d")) = some r := by
      show scanRepl (matchDir INCPRE false) (includeRepl (ctx3 r))
          (chars ("\x7b\x7binclude|./d2/f2.txt\x7d\x7d")) = some r
      rw [scanRepl_some _ _ (matchDir_shrink INCPRE false)
        (chars ("\x7b\x7binclude|./d2/f2.txt\x7d\x7d")) (chars ("d2/")) (chars ("f2.txt")) []
        (by decide) (by decide)]
      rw [show includeRepl (ctx3 r) (chars ("d2/")) (chars ("f2.txt")) = some r from rfl]
      simp [scanRepl, scanAux]
    show (linkTransform (ctx3 r) _).bind _ = some r
    rw [h2]
    simpa using h3

end MTP
